import Mathlib

/-!
Verification of the Encrypted Risk Propagation Engine (IVS.py).

Shallow embedding of the core of the Infection Tracking System: the contact
network generator, the homomorphic breadth-first risk traversal
(`calculate_ivs_score`), the classifier (`classify_ivs_score`), the decision
function (`get_final_decision`) and the CLI query-loop body (`main`).

Modelling choices:
* CKKS ciphertexts are modelled under exact arithmetic: a ciphertext is the
  plaintext vector of rationals it encodes, `encrypt`/`decrypt` are the
  identity and the homomorphic operations are element-wise `+`/`*` on `ℚ`.
  Claims phrased "within decode tolerance" hold exactly in this model.
* Python runtime values stored in a network cell keep their runtime type:
  `Cell.ival` is a Python `int`, `Cell.fval` a Python `float` (whose value we
  represent as a rational) and `Cell.enc` a `CKKSVector`.  This is needed to
  embed the `isinstance(..., int)` test on line 89 of IVS.py faithfully.
* `random.uniform`/`random.randint` draws are inputs of the embedded
  functions; the distributional ranges become hypotheses of the theorems.
  `random.uniform(a, b)` always returns a `float`, never an `int`.
* The module constants `NUM_PEOPLE` and `NUM_INFECTIONS` are generalised to
  parameters `N` and `K`; the concrete constants of the file are kept as
  definitions.
* The unbounded `while queue:` loop is embedded with explicit fuel
  `(N + 1) * (N + 1)`; the termination theorem proves this fuel always
  suffices, so the `Option` result is always `some`.
* The BFS state carries ghost instrumentation (`processed`, `contribs`,
  `pushes`) recording which nodes had their neighbor loop run, which
  neighbors contributed a homomorphic addition, and how many queue
  insertions happened.  The instrumentation never influences control flow.
-/

/-- `NUM_PEOPLE = 50` (IVS.py line 5). -/
def NUM_PEOPLE : Nat := 50

/-- `NUM_INFECTIONS = 5` (IVS.py line 6). -/
def NUM_INFECTIONS : Nat := 5

/-- `THRESHOLD_SAFE = 800` (IVS.py line 7). -/
def THRESHOLD_SAFE : ℚ := 800

/-- `THRESHOLD_CAUTION = 1200` (IVS.py line 8). -/
def THRESHOLD_CAUTION : ℚ := 1200

/-- A CKKS ciphertext under exact arithmetic: the vector it encodes. -/
abbrev Ciphertext : Type := List ℚ

/-- `HomomorphicEncryptionWrapper.encrypt` (IVS.py lines 20-22): encodes a
list of numbers as a ciphertext.  Exact model: the identity. -/
def encrypt (data_list : List ℚ) : Ciphertext := data_list

/-- `HomomorphicEncryptionWrapper.decrypt` (IVS.py lines 24-26). -/
def decrypt (encrypted_data : Ciphertext) : List ℚ := encrypted_data

/-- Homomorphic element-wise addition (`CKKSVector.__add__`). -/
def ckksAdd (a b : Ciphertext) : Ciphertext := List.zipWith (· + ·) a b

/-- Homomorphic element-wise multiplication (`CKKSVector.__mul__`). -/
def ckksMul (a b : Ciphertext) : Ciphertext := List.zipWith (· * ·) a b

/-- A cell of the adjacency matrix, tagged with its Python runtime type:
a Python `int`, a Python `float`, or a `CKKSVector`. -/
inductive Cell where
  | ival (n : ℤ)
  | fval (q : ℚ)
  | enc (v : Ciphertext)
deriving DecidableEq

/-- The edge-activation test of IVS.py line 89:
`isinstance(adjacency_matrix[person][neighbor], int) and adjacency_matrix[person][neighbor] > 0`.
Only a Python `int` strictly greater than `0` passes. -/
def edgeActive : Cell → Bool
  | .ival n => decide (0 < n)
  | .fval _ => false
  | .enc _ => false

/-- The value of a cell used as the left operand of the homomorphic product
on IVS.py line 97.  A `CKKSVector` contributes its vector; a Python number
would be broadcast over the `K` slots (TenSEAL scalar multiplication). -/
def cellVec (K : Nat) : Cell → Ciphertext
  | .ival n => List.replicate K (n : ℚ)
  | .fval q => List.replicate K q
  | .enc v => v

/-- `generate_adjacency_matrix` (IVS.py lines 28-39), generalised to `N`
people and `K` infections.  `w i j` is the draw of `random.uniform(0, 10)`
for the ordered pair `(i, j)` (a Python `float`); `statusDraw i j` is the
draw of `random.randint(0, 1)` for person `i`, infection `j`.  The diagonal
is first set to the `int` `0` and then overwritten with person `i`'s
encrypted status vector, so the returned matrix has `Cell.enc` on the
diagonal and `Cell.fval` weights elsewhere. -/
def generate_adjacency_matrix (N K : Nat) (w : Nat → Nat → ℚ)
    (statusDraw : Nat → Nat → ℕ) :
    (Nat → Nat → Cell) × (Nat → Ciphertext) × (Nat → List ℕ) :=
  let infected_statuses : Nat → List ℕ := fun i => (List.range K).map (statusDraw i)
  let encrypted_statuses : Nat → Ciphertext := fun i =>
    encrypt ((infected_statuses i).map (fun x => (x : ℚ)))
  (fun i j => if i = j then Cell.enc (encrypted_statuses i) else Cell.fval (w i j),
   encrypted_statuses, infected_statuses)

/-- `max_distance = 5` (IVS.py line 73). -/
def max_distance : Nat := 5

/-- `alpha = 5`, the initial base risk score (IVS.py line 64). -/
def alpha : ℚ := 5

/-- The weight normalization of IVS.py lines 69-71:
`weights = [sev / total_severity for sev in infection_severities]`. -/
def normalize_weights (infection_severities : List ℚ) : List ℚ :=
  infection_severities.map (fun sev => sev / infection_severities.sum)

/-- The per-infection contribution of IVS.py line 94:
`[interaction_weight * (1 / (ci ** distance)) * susceptibility_factor for ci in ci_vector]`. -/
def ivs_contribution (interaction_weight susceptibility_factor : ℚ)
    (ci_vector : List ℚ) (distance : Nat) : List ℚ :=
  ci_vector.map (fun ci => interaction_weight * (1 / ci ^ distance) * susceptibility_factor)

/-- The state of the BFS loop of `calculate_ivs_score`: the encrypted
accumulator `ivs_scores`, the `visited` set and the FIFO `queue`, plus ghost
instrumentation: `processed` logs (in order) every person whose neighbor
loop ran, `contribs` logs every neighbor whose status was homomorphically
added into the accumulator, and `pushes` counts queue insertions (including
the initial seeding). -/
structure BfsState where
  ivs_scores : Ciphertext
  visited : Finset Nat
  queue : List (Nat × Nat)
  processed : List Nat
  contribs : List Nat
  pushes : Nat
deriving DecidableEq

/-- One iteration of the neighbor loop of IVS.py lines 85-99, for a fixed
`neighbor`: skip if visited; otherwise, if the edge-activation test of
line 89 passes, homomorphically add `encrypted_status * encrypted_ivs_contribution`
into the accumulator and enqueue `(neighbor, distance + 1)`. -/
def processNeighbor (K : Nat) (adj : Nat → Nat → Cell)
    (severity_factors : Nat → List ℚ) (iw : Nat → Nat → ℚ)
    (susceptibility_factor : ℚ) (person distance : Nat)
    (st : BfsState) (neighbor : Nat) : BfsState :=
  if neighbor ∈ st.visited then st
  else if edgeActive (adj person neighbor) then
    let encrypted_status := cellVec K (adj neighbor neighbor)
    let ci_vector := severity_factors neighbor
    let interaction_weight := iw person neighbor
    let encrypted_ivs_contribution :=
      encrypt (ivs_contribution interaction_weight susceptibility_factor ci_vector distance)
    { st with
      ivs_scores := ckksAdd st.ivs_scores (ckksMul encrypted_status encrypted_ivs_contribution),
      queue := st.queue ++ [(neighbor, distance + 1)],
      contribs := st.contribs ++ [neighbor],
      pushes := st.pushes + 1 }
  else st

/-- The full neighbor loop `for neighbor in range(NUM_PEOPLE):` of IVS.py
lines 85-99. -/
def expandNode (N K : Nat) (adj : Nat → Nat → Cell)
    (severity_factors : Nat → List ℚ) (iw : Nat → Nat → ℚ)
    (susceptibility_factor : ℚ) (person distance : Nat)
    (st : BfsState) : BfsState :=
  (List.range N).foldl
    (processNeighbor K adj severity_factors iw susceptibility_factor person distance) st

/-- The `while queue:` loop of IVS.py lines 79-99, with explicit fuel.
Each iteration pops the front of the queue; entries whose distance exceeds
`max_distance` or whose person is already visited are discarded; otherwise
the person is marked visited (and logged in `processed`) and its neighbor
loop runs.  Returns `none` only if the fuel runs out before the queue
empties. -/
def bfsLoop (N K : Nat) (adj : Nat → Nat → Cell)
    (severity_factors : Nat → List ℚ) (iw : Nat → Nat → ℚ)
    (susceptibility_factor : ℚ) : Nat → BfsState → Option BfsState
  | 0, st => if st.queue.isEmpty then some st else none
  | fuel + 1, st =>
    match st.queue with
    | [] => some st
    | (person, distance) :: rest =>
      if max_distance < distance ∨ person ∈ st.visited then
        bfsLoop N K adj severity_factors iw susceptibility_factor fuel
          { st with queue := rest }
      else
        bfsLoop N K adj severity_factors iw susceptibility_factor fuel
          (expandNode N K adj severity_factors iw susceptibility_factor person distance
            { st with
              queue := rest,
              visited := insert person st.visited,
              processed := st.processed ++ [person] })

/-- The initial BFS state of IVS.py lines 74-77: accumulator
`encrypt([alpha] * K)`, empty visited set, queue seeded with
`(A_index, 0)`. -/
def initState (K A_index : Nat) : BfsState :=
  { ivs_scores := encrypt (List.replicate K alpha)
    visited := ∅
    queue := [(A_index, 0)]
    processed := []
    contribs := []
    pushes := 1 }

/-- `calculate_ivs_score` (IVS.py lines 62-101), generalised to `N` people
and `K` infections.  The random draws are inputs: `susceptibility_factor`
(`random.uniform(0.5, 2.0)`), `severity_factors` (rows of
`random.uniform(0.1, 2.0)` draws), `infection_severities` (the
`random.uniform(0.1, 1.0)` draws of length `K`) and `iw person neighbor`
(the `random.uniform(0.5, 1.0)` interaction-weight draw made when the edge
`person → neighbor` activates; each ordered pair is processed at most once,
so indexing the fresh draws by the pair is faithful).  Returns the final
BFS state (whose `ivs_scores` is the encrypted IVS vector) and the
normalized weights, or `none` if the fuel `(N+1)*(N+1)` were to run out
(the termination theorem shows it never does). -/
def calculate_ivs_score (N K : Nat) (adj : Nat → Nat → Cell) (A_index : Nat)
    (susceptibility_factor : ℚ) (severity_factors : Nat → List ℚ)
    (infection_severities : List ℚ) (iw : Nat → Nat → ℚ) :
    Option (BfsState × List ℚ) :=
  let weights := normalize_weights infection_severities
  (bfsLoop N K adj severity_factors iw susceptibility_factor
      ((N + 1) * (N + 1)) (initState K A_index)).map (fun st => (st, weights))

/-- Per-infection classification label (the three branches of
`classify_ivs_score`, IVS.py lines 103-113; console strings abstracted). -/
inductive Label where
  | safe
  | caution
  | highRisk
deriving DecidableEq

/-- `classify_ivs_score` (IVS.py lines 103-113): classify each decoded score
against `THRESHOLD_SAFE` and `THRESHOLD_CAUTION`. -/
def classify_ivs_score (ivs_scores : List ℚ) : List Label :=
  ivs_scores.map (fun score =>
    if score < THRESHOLD_SAFE then Label.safe
    else if score < THRESHOLD_CAUTION then Label.caution
    else Label.highRisk)

/-- Admission verdict (the three branches of `get_final_decision`,
IVS.py lines 115-122; console strings abstracted). -/
inductive Decision where
  | allowed
  | avoidLargeGatherings
  | notAllowed
deriving DecidableEq

/-- `get_final_decision` (IVS.py lines 115-122). -/
def get_final_decision (final_ivs_score : ℚ) : Decision :=
  if final_ivs_score < THRESHOLD_SAFE then Decision.allowed
  else if final_ivs_score < THRESHOLD_CAUTION then Decision.avoidLargeGatherings
  else Decision.notAllowed

/-- The composite score of IVS.py line 150:
`sum(decrypted_ivs_scores[i] * weights[i] for i in range(NUM_INFECTIONS))`. -/
def final_ivs_score (K : Nat) (decrypted_ivs_scores weights : List ℚ) : ℚ :=
  ∑ i ∈ Finset.range K, decrypted_ivs_scores.getD i 0 * weights.getD i 0

/-- The successful-query pipeline of `main` (IVS.py lines 146-162):
compute the encrypted IVS scores, decrypt, classify, form the composite
score and decide.  Observable output: the decoded per-infection scores, the
per-infection labels and the final decision. -/
def queryPipeline (N K : Nat) (adj : Nat → Nat → Cell) (A_index : Nat)
    (susceptibility_factor : ℚ) (severity_factors : Nat → List ℚ)
    (infection_severities : List ℚ) (iw : Nat → Nat → ℚ) :
    Option (List ℚ × List Label × Decision) :=
  (calculate_ivs_score N K adj A_index susceptibility_factor severity_factors
      infection_severities iw).map (fun r =>
    let decrypted_ivs_scores := decrypt r.1.ivs_scores
    let classifications := classify_ivs_score decrypted_ivs_scores
    let final := final_ivs_score K decrypted_ivs_scores r.2
    (decrypted_ivs_scores, classifications, get_final_decision final))

/-- Outcome of one round of the interaction loop of `main`
(IVS.py lines 131-162). -/
inductive QueryOutcome where
  | exitLoop
  | invalidInput
  | invalidIndex
  | computed (result : Option (List ℚ × List Label × Decision))
deriving DecidableEq

/-- Python `str.lower()` (on ASCII input), over the character list. -/
def pyLower (s : String) : String := String.mk (s.data.map Char.toLower)

/-- Python `str.isdigit()` (on ASCII input): non-empty and all digits. -/
def pyIsDigit (s : String) : Bool := !s.data.isEmpty && s.data.all Char.isDigit

/-- Python `int(s)` on a digit string. -/
def parseDigits (s : String) : Nat :=
  s.data.foldl (fun n c => n * 10 + (c.toNat - Char.toNat (Char.ofNat 48))) 0

/-- One round of the interaction loop of `main` (IVS.py lines 131-162),
on the already-stripped input string.  The adjacency matrix is threaded
through as state: no branch of the loop body writes to it, so it is
returned unchanged.  `'exit'` breaks; a non-digit input and an
out-of-range index are reported and the loop re-prompts without computing
a score; otherwise the query pipeline runs. -/
def mainStep (N K : Nat) (adj : Nat → Nat → Cell)
    (susceptibility_factor : ℚ) (severity_factors : Nat → List ℚ)
    (infection_severities : List ℚ) (iw : Nat → Nat → ℚ)
    (input : String) : (Nat → Nat → Cell) × QueryOutcome :=
  if pyLower input = "exit" then (adj, QueryOutcome.exitLoop)
  else if !pyIsDigit input then (adj, QueryOutcome.invalidInput)
  else
    let A_index := parseDigits input
    if N ≤ A_index then (adj, QueryOutcome.invalidIndex)
    else (adj, QueryOutcome.computed
      (queryPipeline N K adj A_index susceptibility_factor severity_factors
        infection_severities iw))

/-! ## Helper lemmas about the traversal -/

theorem processNeighbor_visited (K : Nat) (adj : Nat → Nat → Cell)
    (severity_factors : Nat → List ℚ) (iw : Nat → Nat → ℚ)
    (susceptibility_factor : ℚ) (person distance : Nat)
    (st : BfsState) (neighbor : Nat) :
    (processNeighbor K adj severity_factors iw susceptibility_factor person distance
      st neighbor).visited = st.visited := by
  unfold processNeighbor
  split <;> [rfl; split <;> rfl]

theorem processNeighbor_processed (K : Nat) (adj : Nat → Nat → Cell)
    (severity_factors : Nat → List ℚ) (iw : Nat → Nat → ℚ)
    (susceptibility_factor : ℚ) (person distance : Nat)
    (st : BfsState) (neighbor : Nat) :
    (processNeighbor K adj severity_factors iw susceptibility_factor person distance
      st neighbor).processed = st.processed := by
  unfold processNeighbor
  split <;> [rfl; split <;> rfl]

theorem expandNode_visited (N K : Nat) (adj : Nat → Nat → Cell)
    (severity_factors : Nat → List ℚ) (iw : Nat → Nat → ℚ)
    (susceptibility_factor : ℚ) (person distance : Nat) (st : BfsState) :
    (expandNode N K adj severity_factors iw susceptibility_factor person distance
      st).visited = st.visited := by
  unfold expandNode
  generalize List.range N = l
  induction l generalizing st with
  | nil => rfl
  | cons n l ih => rw [List.foldl_cons, ih, processNeighbor_visited]

/-- Effect of the neighbor loop, run over an arbitrary neighbor list `l`:
the queue is extended by a tail `t` of entries (one per activated neighbor,
each at distance `distance + 1`), `pushes` grows by `t.length ≤ l.length`,
and any new entry of `contribs` is an unvisited member of `l`. -/
theorem foldl_processNeighbor_spec (K : Nat) (adj : Nat → Nat → Cell)
    (severity_factors : Nat → List ℚ) (iw : Nat → Nat → ℚ)
    (susceptibility_factor : ℚ) (person distance : Nat) :
    ∀ (l : List Nat) (st : BfsState),
      ∃ t : List (Nat × Nat),
        (l.foldl (processNeighbor K adj severity_factors iw susceptibility_factor
            person distance) st).queue = st.queue ++ t ∧
        (l.foldl (processNeighbor K adj severity_factors iw susceptibility_factor
            person distance) st).pushes = st.pushes + t.length ∧
        t.length ≤ l.length ∧
        (∀ pr ∈ t, pr.1 ∈ l ∧ pr.2 = distance + 1) ∧
        (∀ c ∈ (l.foldl (processNeighbor K adj severity_factors iw susceptibility_factor
            person distance) st).contribs, c ∈ st.contribs ∨ (c ∈ l ∧ c ∉ st.visited)) := by
  intro l
  induction l with
  | nil =>
    intro st
    exact ⟨[], by simp⟩
  | cons n l ih =>
    intro st
    rw [List.foldl_cons]
    obtain ⟨t', hq, hp, hlen, hmem, hc⟩ :=
      ih (processNeighbor K adj severity_factors iw susceptibility_factor
        person distance st n)
    have hvf := processNeighbor_visited K adj severity_factors iw
      susceptibility_factor person distance st n
    by_cases hv : n ∈ st.visited
    · have hid : processNeighbor K adj severity_factors iw susceptibility_factor
          person distance st n = st := by
        unfold processNeighbor
        rw [if_pos hv]
      refine ⟨t', by rw [hq, hid], by rw [hp, hid], hlen.trans (Nat.le_succ _), ?_, ?_⟩
      · intro pr hpr
        exact ⟨List.mem_cons_of_mem _ (hmem pr hpr).1, (hmem pr hpr).2⟩
      · intro c hcmem
        rcases hc c hcmem with h | ⟨h1, h2⟩
        · exact Or.inl (hid ▸ h)
        · exact Or.inr ⟨List.mem_cons_of_mem _ h1, by rw [hid] at h2; exact h2⟩
    · by_cases hact : edgeActive (adj person n)
      · have hqf : (processNeighbor K adj severity_factors iw susceptibility_factor
            person distance st n).queue = st.queue ++ [(n, distance + 1)] := by
          unfold processNeighbor
          rw [if_neg hv, if_pos hact]
        have hpf : (processNeighbor K adj severity_factors iw susceptibility_factor
            person distance st n).pushes = st.pushes + 1 := by
          unfold processNeighbor
          rw [if_neg hv, if_pos hact]
        have hcf : (processNeighbor K adj severity_factors iw susceptibility_factor
            person distance st n).contribs = st.contribs ++ [n] := by
          unfold processNeighbor
          rw [if_neg hv, if_pos hact]
        refine ⟨(n, distance + 1) :: t', ?_, ?_, ?_, ?_, ?_⟩
        · rw [hq, hqf, List.append_assoc, List.singleton_append]
        · rw [hp, hpf, List.length_cons]
          omega
        · simpa using Nat.succ_le_succ hlen
        · intro pr hpr
          rcases List.mem_cons.mp hpr with h | h
          · exact ⟨by simp [h], by simp [h]⟩
          · exact ⟨List.mem_cons_of_mem _ (hmem pr h).1, (hmem pr h).2⟩
        · intro c hcmem
          rcases hc c hcmem with h | ⟨h1, h2⟩
          · rw [hcf] at h
            rcases List.mem_append.mp h with h | h
            · exact Or.inl h
            · have hcn : c = n := by simpa using h
              exact Or.inr ⟨by simp [hcn], hcn ▸ hv⟩
          · rw [hvf] at h2
            exact Or.inr ⟨List.mem_cons_of_mem _ h1, h2⟩
      · have hid : processNeighbor K adj severity_factors iw susceptibility_factor
            person distance st n = st := by
          unfold processNeighbor
          rw [if_neg hv, if_neg hact]
        refine ⟨t', by rw [hq, hid], by rw [hp, hid], hlen.trans (Nat.le_succ _), ?_, ?_⟩
        · intro pr hpr
          exact ⟨List.mem_cons_of_mem _ (hmem pr hpr).1, (hmem pr hpr).2⟩
        · intro c hcmem
          rcases hc c hcmem with h | ⟨h1, h2⟩
          · exact Or.inl (hid ▸ h)
          · exact Or.inr ⟨List.mem_cons_of_mem _ h1, by rw [hid] at h2; exact h2⟩

theorem expandNode_processed (N K : Nat) (adj : Nat → Nat → Cell)
    (severity_factors : Nat → List ℚ) (iw : Nat → Nat → ℚ)
    (susceptibility_factor : ℚ) (person distance : Nat) (st : BfsState) :
    (expandNode N K adj severity_factors iw susceptibility_factor person distance
      st).processed = st.processed := by
  unfold expandNode
  generalize List.range N = l
  induction l generalizing st with
  | nil => rfl
  | cons n l ih => rw [List.foldl_cons, ih, processNeighbor_processed]

/-- Unfolding lemma: an empty queue returns the state unchanged. -/
theorem bfsLoop_nil (N K : Nat) (adj : Nat → Nat → Cell)
    (severity_factors : Nat → List ℚ) (iw : Nat → Nat → ℚ)
    (susceptibility_factor : ℚ) (fuel : Nat) (st : BfsState)
    (hq : st.queue = []) :
    bfsLoop N K adj severity_factors iw susceptibility_factor fuel st = some st := by
  obtain ⟨acc, vis, qu, proc, cbs, psh⟩ := st
  simp only at hq
  subst hq
  cases fuel <;> rfl

/-- Unfolding lemma: one iteration of the `while queue:` loop. -/
theorem bfsLoop_succ (N K : Nat) (adj : Nat → Nat → Cell)
    (severity_factors : Nat → List ℚ) (iw : Nat → Nat → ℚ)
    (susceptibility_factor : ℚ) (fuel : Nat) (person distance : Nat)
    (rest : List (Nat × Nat)) (st : BfsState)
    (hq : st.queue = (person, distance) :: rest) :
    bfsLoop N K adj severity_factors iw susceptibility_factor (fuel + 1) st =
      if max_distance < distance ∨ person ∈ st.visited then
        bfsLoop N K adj severity_factors iw susceptibility_factor fuel
          { st with queue := rest }
      else
        bfsLoop N K adj severity_factors iw susceptibility_factor fuel
          (expandNode N K adj severity_factors iw susceptibility_factor person distance
            { st with
              queue := rest,
              visited := insert person st.visited,
              processed := st.processed ++ [person] }) := by
  obtain ⟨acc, vis, qu, proc, cbs, psh⟩ := st
  simp only at hq
  subst hq
  rfl

/-- The set of nodes the traversal may still mark visited: queued persons
and persons in `range N`, minus the visited set.  Measure for termination. -/
def bfsFrontier (N : Nat) (st : BfsState) : Finset Nat :=
  ((st.queue.map Prod.fst).toFinset ∪ Finset.range N) \ st.visited

/-- Totality of the BFS loop: if the fuel dominates
`queue.length + |frontier| * N` then the loop empties its queue and returns
`some`, and the total number of queue insertions it adds is at most
`|frontier| * N`. -/
theorem bfsLoop_total (N K : Nat) (adj : Nat → Nat → Cell)
    (severity_factors : Nat → List ℚ) (iw : Nat → Nat → ℚ)
    (susceptibility_factor : ℚ) :
    ∀ (fuel : Nat) (st : BfsState),
      st.queue.length + (bfsFrontier N st).card * N ≤ fuel →
      ∃ r, bfsLoop N K adj severity_factors iw susceptibility_factor fuel st = some r ∧
        r.pushes ≤ st.pushes + (bfsFrontier N st).card * N := by
  intro fuel
  induction fuel with
  | zero =>
    intro st h
    have hlen : st.queue.length = 0 := by omega
    have hnil : st.queue = [] := List.length_eq_zero.mp hlen
    refine ⟨st, ?_, Nat.le_add_right _ _⟩
    simp [bfsLoop, hnil]
  | succ fuel ih =>
    intro st h
    rcases hq : st.queue with _ | ⟨⟨person, distance⟩, rest⟩
    · exact ⟨st, bfsLoop_nil N K adj severity_factors iw susceptibility_factor _ st hq,
        Nat.le_add_right _ _⟩
    · by_cases hd : max_distance < distance ∨ person ∈ st.visited
      · -- discard the popped entry
        have hsub : bfsFrontier N { st with queue := rest } ⊆ bfsFrontier N st := by
          intro x hx
          simp only [bfsFrontier, Finset.mem_sdiff, Finset.mem_union, List.mem_toFinset,
            List.mem_map, hq] at hx ⊢
          rcases hx with ⟨hx1 | hx1, hx2⟩
          · obtain ⟨pr, hpr, hfst⟩ := hx1
            exact ⟨Or.inl ⟨pr, List.mem_cons_of_mem _ hpr, hfst⟩, hx2⟩
          · exact ⟨Or.inr hx1, hx2⟩
        have hcard : (bfsFrontier N { st with queue := rest }).card ≤ (bfsFrontier N st).card :=
          Finset.card_le_card hsub
        have hmul : (bfsFrontier N { st with queue := rest }).card * N ≤
            (bfsFrontier N st).card * N := Nat.mul_le_mul_right N hcard
        have hlen : st.queue.length = rest.length + 1 := by rw [hq]; rfl
        obtain ⟨r, hr, hrp⟩ := ih { st with queue := rest } (by simp only; omega)
        refine ⟨r, ?_, ?_⟩
        · rw [bfsLoop_succ N K adj severity_factors iw susceptibility_factor fuel
            person distance rest st hq, if_pos hd]
          exact hr
        · simp only at hrp
          omega
      · -- mark `person` visited, run the neighbor loop
        have hstq : ({ st with
            queue := rest,
            visited := insert person st.visited,
            processed := st.processed ++ [person] } : BfsState).queue = rest := rfl
        obtain ⟨t, hqe, hpe, hlent, hmemt, _⟩ :=
          foldl_processNeighbor_spec K adj severity_factors iw susceptibility_factor
            person distance (List.range N)
            { st with
              queue := rest,
              visited := insert person st.visited,
              processed := st.processed ++ [person] }
        have hex : expandNode N K adj severity_factors iw susceptibility_factor
            person distance
            { st with
              queue := rest,
              visited := insert person st.visited,
              processed := st.processed ++ [person] } =
            (List.range N).foldl
              (processNeighbor K adj severity_factors iw susceptibility_factor
                person distance)
              { st with
                queue := rest,
                visited := insert person st.visited,
                processed := st.processed ++ [person] } := rfl
        set st2 := (List.range N).foldl
          (processNeighbor K adj severity_factors iw susceptibility_factor
            person distance)
          { st with
            queue := rest,
            visited := insert person st.visited,
            processed := st.processed ++ [person] } with hst2
        have hvis2 : st2.visited = insert person st.visited := by
          rw [← hex, expandNode_visited]
        push_neg at hd
        have hpmem : person ∈ bfsFrontier N st := by
          simp only [bfsFrontier, Finset.mem_sdiff, Finset.mem_union, List.mem_toFinset,
            List.mem_map, hq]
          exact ⟨Or.inl ⟨(person, distance), List.mem_cons_self _ _, rfl⟩, hd.2⟩
        have hsub : bfsFrontier N st2 ⊆ bfsFrontier N st \ {person} := by
          intro x hx
          simp only [bfsFrontier, Finset.mem_sdiff, Finset.mem_union, List.mem_toFinset,
            List.mem_map, hvis2, hqe, hstq, Finset.mem_insert, List.mem_append,
            Finset.mem_singleton, hq] at hx ⊢
          push_neg at hx
          rcases hx with ⟨hx1, hxp, hxv⟩
          refine ⟨⟨?_, hxv⟩, hxp⟩
          rcases hx1 with ⟨pr, hpr | hpr, hfst⟩ | hxr
          · exact Or.inl ⟨pr, List.mem_cons_of_mem _ hpr, hfst⟩
          · have := (hmemt pr hpr).1
            rw [List.mem_range] at this
            exact Or.inr (by rw [← hfst]; simpa using this)
          · exact Or.inr hxr
        have hcard2 : (bfsFrontier N st2).card + 1 ≤ (bfsFrontier N st).card := by
          have h1 : (bfsFrontier N st2).card ≤ (bfsFrontier N st \ {person}).card :=
            Finset.card_le_card hsub
          have h2 : (bfsFrontier N st \ {person}).card =
              (bfsFrontier N st).card - 1 := by
            rw [Finset.card_sdiff (Finset.singleton_subset_iff.mpr hpmem)]
            rfl
          have h3 : 1 ≤ (bfsFrontier N st).card := Finset.card_pos.mpr ⟨person, hpmem⟩
          omega
        have hmul : (bfsFrontier N st2).card * N + N ≤ (bfsFrontier N st).card * N := by
          calc (bfsFrontier N st2).card * N + N = ((bfsFrontier N st2).card + 1) * N := by ring
            _ ≤ (bfsFrontier N st).card * N := Nat.mul_le_mul_right N hcard2
        have hlen : st.queue.length = rest.length + 1 := by rw [hq]; rfl
        have hq2len : st2.queue.length = rest.length + t.length := by
          rw [hqe, hstq, List.length_append]
        have htN : t.length ≤ N := by simpa using hlent
        obtain ⟨r, hr, hrp⟩ := ih st2 (by omega)
        refine ⟨r, ?_, ?_⟩
        · rw [bfsLoop_succ N K adj severity_factors iw susceptibility_factor fuel
            person distance rest st hq, if_neg (by push_neg; exact hd), hex]
          exact hr
        · have hp2 : st2.pushes = st.pushes + t.length := by
            rw [hpe]
          omega

/-- Unfolding lemma: with zero fuel, a `some` result means the queue was
already empty and the state is returned unchanged. -/
theorem bfsLoop_zero (N K : Nat) (adj : Nat → Nat → Cell)
    (severity_factors : Nat → List ℚ) (iw : Nat → Nat → ℚ)
    (susceptibility_factor : ℚ) (st r : BfsState)
    (hrun : bfsLoop N K adj severity_factors iw susceptibility_factor 0 st = some r) :
    r = st := by
  simp only [bfsLoop] at hrun
  split at hrun
  · exact (Option.some.inj hrun).symm
  · exact Option.noConfusion hrun

/-- The processed log stays duplicate-free and only grows: every person is
expanded at most once. -/
theorem bfsLoop_processed (N K : Nat) (adj : Nat → Nat → Cell)
    (severity_factors : Nat → List ℚ) (iw : Nat → Nat → ℚ)
    (susceptibility_factor : ℚ) :
    ∀ (fuel : Nat) (st r : BfsState),
      st.processed.Nodup → (∀ x ∈ st.processed, x ∈ st.visited) →
      bfsLoop N K adj severity_factors iw susceptibility_factor fuel st = some r →
      r.processed.Nodup ∧ ∀ x ∈ st.processed, x ∈ r.processed := by
  intro fuel
  induction fuel with
  | zero =>
    intro st r hnd hsub hrun
    have := bfsLoop_zero N K adj severity_factors iw susceptibility_factor st r hrun
    subst this
    exact ⟨hnd, fun x hx => hx⟩
  | succ fuel ih =>
    intro st r hnd hsub hrun
    rcases hq : st.queue with _ | ⟨⟨person, distance⟩, rest⟩
    · rw [bfsLoop_nil N K adj severity_factors iw susceptibility_factor _ st hq] at hrun
      have := Option.some.inj hrun
      subst this
      exact ⟨hnd, fun x hx => hx⟩
    · rw [bfsLoop_succ N K adj severity_factors iw susceptibility_factor fuel
        person distance rest st hq] at hrun
      by_cases hd : max_distance < distance ∨ person ∈ st.visited
      · rw [if_pos hd] at hrun
        exact ih { st with queue := rest } r hnd hsub hrun
      · rw [if_neg hd] at hrun
        push_neg at hd
        have hpv : person ∉ st.processed := fun hmem => hd.2 (hsub person hmem)
        have hnd2 : (st.processed ++ [person]).Nodup := by
          rw [List.nodup_append]
          exact ⟨hnd, List.nodup_singleton person,
            fun a ha hb => hpv (by rwa [List.mem_singleton.mp hb] at ha)⟩
        have hsub2 : ∀ x ∈ st.processed ++ [person], x ∈ insert person st.visited := by
          intro x hx
          rcases List.mem_append.mp hx with hx | hx
          · exact Finset.mem_insert_of_mem (hsub x hx)
          · rw [List.mem_singleton.mp hx]
            exact Finset.mem_insert_self _ _
        have hpe := expandNode_processed N K adj severity_factors iw
          susceptibility_factor person distance
          { st with
            queue := rest,
            visited := insert person st.visited,
            processed := st.processed ++ [person] }
        have hve := expandNode_visited N K adj severity_factors iw
          susceptibility_factor person distance
          { st with
            queue := rest,
            visited := insert person st.visited,
            processed := st.processed ++ [person] }
        obtain ⟨h1, h2⟩ := ih _ r (by rw [hpe]; exact hnd2)
          (by rw [hpe, hve]; exact hsub2) hrun
        refine ⟨h1, fun x hx => ?_⟩
        apply h2
        rw [hpe]
        exact List.mem_append_left _ hx

/-- A node already visited and not yet in the contribution log never joins
the contribution log. -/
theorem bfsLoop_contribs (N K : Nat) (adj : Nat → Nat → Cell)
    (severity_factors : Nat → List ℚ) (iw : Nat → Nat → ℚ)
    (susceptibility_factor : ℚ) :
    ∀ (fuel : Nat) (st r : BfsState) (o : Nat),
      o ∈ st.visited → o ∉ st.contribs →
      bfsLoop N K adj severity_factors iw susceptibility_factor fuel st = some r →
      o ∉ r.contribs := by
  intro fuel
  induction fuel with
  | zero =>
    intro st r o hv hc hrun
    have := bfsLoop_zero N K adj severity_factors iw susceptibility_factor st r hrun
    subst this
    exact hc
  | succ fuel ih =>
    intro st r o hv hc hrun
    rcases hq : st.queue with _ | ⟨⟨person, distance⟩, rest⟩
    · rw [bfsLoop_nil N K adj severity_factors iw susceptibility_factor _ st hq] at hrun
      have := Option.some.inj hrun
      subst this
      exact hc
    · rw [bfsLoop_succ N K adj severity_factors iw susceptibility_factor fuel
        person distance rest st hq] at hrun
      by_cases hd : max_distance < distance ∨ person ∈ st.visited
      · rw [if_pos hd] at hrun
        exact ih { st with queue := rest } r o hv hc hrun
      · rw [if_neg hd] at hrun
        obtain ⟨t, _, _, _, _, hcsp⟩ :=
          foldl_processNeighbor_spec K adj severity_factors iw susceptibility_factor
            person distance (List.range N)
            { st with
              queue := rest,
              visited := insert person st.visited,
              processed := st.processed ++ [person] }
        have hve := expandNode_visited N K adj severity_factors iw
          susceptibility_factor person distance
          { st with
            queue := rest,
            visited := insert person st.visited,
            processed := st.processed ++ [person] }
        have hex : expandNode N K adj severity_factors iw susceptibility_factor
            person distance
            { st with
              queue := rest,
              visited := insert person st.visited,
              processed := st.processed ++ [person] } =
            (List.range N).foldl
              (processNeighbor K adj severity_factors iw susceptibility_factor
                person distance)
              { st with
                queue := rest,
                visited := insert person st.visited,
                processed := st.processed ++ [person] } := rfl
        refine ih _ r o ?_ ?_ hrun
        · rw [← hex] at *
          rw [hve]
          exact Finset.mem_insert_of_mem hv
        · rw [← hex] at hcsp
          intro hmem
          rcases hcsp o hmem with h | ⟨_, h2⟩
          · exact hc h
          · exact h2 (Finset.mem_insert_of_mem hv)

/-- If no cell of the network passes the edge-activation test, one neighbor
loop changes nothing. -/
theorem expandNode_inactive (N K : Nat) (adj : Nat → Nat → Cell)
    (severity_factors : Nat → List ℚ) (iw : Nat → Nat → ℚ)
    (susceptibility_factor : ℚ) (person distance : Nat) (st : BfsState)
    (hadj : ∀ i j, edgeActive (adj i j) = false) :
    expandNode N K adj severity_factors iw susceptibility_factor person distance st
      = st := by
  unfold expandNode
  generalize List.range N = l
  induction l generalizing st with
  | nil => rfl
  | cons n l ih =>
    rw [List.foldl_cons]
    have hstep : processNeighbor K adj severity_factors iw susceptibility_factor
        person distance st n = st := by
      unfold processNeighbor
      split
      · rfl
      · rw [if_neg (by rw [hadj person n]; exact Bool.false_ne_true)]
    rw [hstep, ih]

/-- If no cell of the network passes the edge-activation test, the whole
loop leaves the accumulator, the contribution log and the insertion count
unchanged: no homomorphic addition is ever performed. -/
theorem bfsLoop_inactive (N K : Nat) (adj : Nat → Nat → Cell)
    (severity_factors : Nat → List ℚ) (iw : Nat → Nat → ℚ)
    (susceptibility_factor : ℚ)
    (hadj : ∀ i j, edgeActive (adj i j) = false) :
    ∀ (fuel : Nat) (st r : BfsState),
      bfsLoop N K adj severity_factors iw susceptibility_factor fuel st = some r →
      r.ivs_scores = st.ivs_scores ∧ r.contribs = st.contribs ∧ r.pushes = st.pushes := by
  intro fuel
  induction fuel with
  | zero =>
    intro st r hrun
    have := bfsLoop_zero N K adj severity_factors iw susceptibility_factor st r hrun
    subst this
    exact ⟨rfl, rfl, rfl⟩
  | succ fuel ih =>
    intro st r hrun
    rcases hq : st.queue with _ | ⟨⟨person, distance⟩, rest⟩
    · rw [bfsLoop_nil N K adj severity_factors iw susceptibility_factor _ st hq] at hrun
      have := Option.some.inj hrun
      subst this
      exact ⟨rfl, rfl, rfl⟩
    · rw [bfsLoop_succ N K adj severity_factors iw susceptibility_factor fuel
        person distance rest st hq] at hrun
      by_cases hd : max_distance < distance ∨ person ∈ st.visited
      · rw [if_pos hd] at hrun
        exact ih { st with queue := rest } r hrun
      · rw [if_neg hd] at hrun
        rw [expandNode_inactive N K adj severity_factors iw susceptibility_factor
          person distance _ hadj] at hrun
        obtain ⟨h1, h2, h3⟩ := ih _ r hrun
        exact ⟨h1, h2, h3⟩

/-- Every cell of a generated network fails the edge-activation test:
off-diagonal cells are Python floats, diagonal cells are ciphertexts. -/
theorem generate_edgeActive_false (N K : Nat) (w : Nat → Nat → ℚ)
    (statusDraw : Nat → Nat → ℕ) (i j : Nat) :
    edgeActive ((generate_adjacency_matrix N K w statusDraw).1 i j) = false := by
  unfold generate_adjacency_matrix
  by_cases h : i = j <;> simp [h, edgeActive]

/-- A list sum written as a `Finset.range` sum over `getD`. -/
theorem sum_range_getD (l : List ℚ) :
    ∑ i ∈ Finset.range l.length, l.getD i 0 = l.sum := by
  induction l with
  | nil => simp
  | cons a l ih =>
    rw [List.length_cons, Finset.sum_range_succ']
    simp only [List.getD_cons_succ, List.getD_cons_zero, List.sum_cons]
    rw [ih, add_comm]

/-- Sum of a list divided element-wise by a constant. -/
theorem sum_map_div (l : List ℚ) (t : ℚ) :
    (l.map (fun s => s / t)).sum = l.sum / t := by
  induction l with
  | nil => simp
  | cons a l ih => simp [ih, add_div]

/-- The normalized weights sum to `1` whenever the severities are strictly
positive and there is at least one of them. -/
theorem normalize_weights_sum (infection_severities : List ℚ)
    (hne : infection_severities ≠ [])
    (hpos : ∀ s ∈ infection_severities, 0 < s) :
    (normalize_weights infection_severities).sum = 1 := by
  have ht : 0 < infection_severities.sum := List.sum_pos infection_severities hpos hne
  unfold normalize_weights
  rw [sum_map_div, div_self (ne_of_gt ht)]

/-- `getD` on a replicated list. -/
theorem getD_replicate (K i : Nat) (a : ℚ) (h : i < K) :
    (List.replicate K a).getD i 0 = a := by
  rw [List.getD_eq_getElem _ _ (by simpa using h)]
  simp

/-- The frontier of the initial state of a valid query is exactly
`range N`. -/
theorem bfsFrontier_initState (N K origin : Nat) (h : origin < N) :
    bfsFrontier N (initState K origin) = Finset.range N := by
  simp only [bfsFrontier, initState, List.map_cons, List.map_nil, List.toFinset_cons,
    List.toFinset_nil, Finset.sdiff_empty, insert_emptyc_eq]
  rw [Finset.union_eq_right.mpr (Finset.singleton_subset_iff.mpr (Finset.mem_range.mpr h))]

/-- `calculate_ivs_score` always returns `some` for a valid origin, with at
most `1 + N * N` queue insertions in total. -/
theorem calculate_ivs_score_total (N K : Nat) (adj : Nat → Nat → Cell)
    (A_index : Nat) (susceptibility_factor : ℚ) (severity_factors : Nat → List ℚ)
    (infection_severities : List ℚ) (iw : Nat → Nat → ℚ) (h : A_index < N) :
    ∃ st : BfsState,
      calculate_ivs_score N K adj A_index susceptibility_factor severity_factors
        infection_severities iw = some (st, normalize_weights infection_severities) ∧
      bfsLoop N K adj severity_factors iw susceptibility_factor ((N + 1) * (N + 1))
        (initState K A_index) = some st ∧
      st.pushes ≤ 1 + N * N := by
  have hfr := bfsFrontier_initState N K A_index h
  have hsq : (N + 1) * (N + 1) = N * N + 2 * N + 1 := by ring
  obtain ⟨r, hrun, hpush⟩ := bfsLoop_total N K adj severity_factors iw
    susceptibility_factor ((N + 1) * (N + 1)) (initState K A_index)
    (by rw [hfr, Finset.card_range]; simp only [initState, List.length_cons,
      List.length_nil]; omega)
  rw [hfr, Finset.card_range] at hpush
  refine ⟨r, ?_, hrun, by simpa [initState] using hpush⟩
  unfold calculate_ivs_score
  rw [hrun]
  rfl

/-- Any completed run from the initial state of a query expands the origin
exactly once and every person at most once. -/
theorem bfsLoop_init_processed (N K : Nat) (adj : Nat → Nat → Cell)
    (severity_factors : Nat → List ℚ) (iw : Nat → Nat → ℚ)
    (susceptibility_factor : ℚ) (fuel origin : Nat) (r : BfsState)
    (hrun : bfsLoop N K adj severity_factors iw susceptibility_factor fuel
      (initState K origin) = some r) :
    r.processed.Nodup ∧ r.processed.count origin = 1 := by
  cases fuel with
  | zero => simp [bfsLoop, initState] at hrun
  | succ fuel =>
    have hq : (initState K origin).queue = (origin, 0) :: [] := rfl
    rw [bfsLoop_succ N K adj severity_factors iw susceptibility_factor fuel
      origin 0 [] _ hq] at hrun
    rw [if_neg (by simp [initState, max_distance])] at hrun
    have hpe := expandNode_processed N K adj severity_factors iw
      susceptibility_factor origin 0
      { initState K origin with
        queue := [],
        visited := insert origin (initState K origin).visited,
        processed := (initState K origin).processed ++ [origin] }
    have hve := expandNode_visited N K adj severity_factors iw
      susceptibility_factor origin 0
      { initState K origin with
        queue := [],
        visited := insert origin (initState K origin).visited,
        processed := (initState K origin).processed ++ [origin] }
    obtain ⟨hnd, hmono⟩ := bfsLoop_processed N K adj severity_factors iw
      susceptibility_factor fuel
      (expandNode N K adj severity_factors iw susceptibility_factor origin 0
        { initState K origin with
          queue := [],
          visited := insert origin (initState K origin).visited,
          processed := (initState K origin).processed ++ [origin] }) r
      (by rw [hpe]; exact List.nodup_singleton origin)
      (by
        rw [hpe, hve]
        intro x hx
        have hxo : x = origin := List.mem_singleton.mp (by simpa [initState] using hx)
        rw [hxo]
        exact Finset.mem_insert_self _ _)
      hrun
    have homem : origin ∈ r.processed := by
      apply hmono
      rw [hpe]
      simp [initState]
    exact ⟨hnd, List.count_eq_one_of_mem hnd homem⟩

/-- The origin's own status never contributes to the accumulator. -/
theorem bfsLoop_init_contribs (N K : Nat) (adj : Nat → Nat → Cell)
    (severity_factors : Nat → List ℚ) (iw : Nat → Nat → ℚ)
    (susceptibility_factor : ℚ) (fuel origin : Nat) (r : BfsState)
    (hrun : bfsLoop N K adj severity_factors iw susceptibility_factor fuel
      (initState K origin) = some r) :
    origin ∉ r.contribs := by
  cases fuel with
  | zero => simp [bfsLoop, initState] at hrun
  | succ fuel =>
    have hq : (initState K origin).queue = (origin, 0) :: [] := rfl
    rw [bfsLoop_succ N K adj severity_factors iw susceptibility_factor fuel
      origin 0 [] _ hq] at hrun
    rw [if_neg (by simp [initState, max_distance])] at hrun
    have hve := expandNode_visited N K adj severity_factors iw
      susceptibility_factor origin 0
      { initState K origin with
        queue := [],
        visited := insert origin (initState K origin).visited,
        processed := (initState K origin).processed ++ [origin] }
    obtain ⟨t, _, _, _, _, hcsp⟩ :=
      foldl_processNeighbor_spec K adj severity_factors iw susceptibility_factor
        origin 0 (List.range N)
        { initState K origin with
          queue := [],
          visited := insert origin (initState K origin).visited,
          processed := (initState K origin).processed ++ [origin] }
    refine bfsLoop_contribs N K adj severity_factors iw susceptibility_factor fuel
      _ r origin ?_ ?_ hrun
    · rw [hve]
      exact Finset.mem_insert_self _ _
    · intro hmem
      rcases hcsp origin hmem with hmem2 | ⟨_, hnv⟩
      · simpa [initState] using hmem2
      · exact hnv (Finset.mem_insert_self _ _)

/-! ## Claim theorems -/

/-- C1: For every valid origin index and every network produced by the
generator (off-diagonal cells continuous uniform floats in `[0,10)`,
diagonal cells ciphertexts), the edge-activation predicate is false for
every cell, so `calculate_ivs_score` performs no homomorphic addition and
returns an accumulator equal (exactly, in the exact-arithmetic model of the
decode tolerance) to the unmodified base-risk encoding
`encrypt([5, 5, ..., 5])` of length `K`. -/
theorem ivs_c1 (N K : Nat) (w : Nat → Nat → ℚ) (statusDraw : Nat → Nat → ℕ)
    (origin : Nat) (susceptibility_factor : ℚ) (severity_factors : Nat → List ℚ)
    (infection_severities : List ℚ) (iw : Nat → Nat → ℚ)
    (h : origin < N) :
    (∀ i j, edgeActive ((generate_adjacency_matrix N K w statusDraw).1 i j) = false) ∧
    ∃ st : BfsState,
      calculate_ivs_score N K (generate_adjacency_matrix N K w statusDraw).1 origin
        susceptibility_factor severity_factors infection_severities iw =
        some (st, normalize_weights infection_severities) ∧
      st.ivs_scores = encrypt (List.replicate K 5) ∧
      st.contribs = [] := by
  refine ⟨generate_edgeActive_false N K w statusDraw, ?_⟩
  obtain ⟨st, hcalc, hrun, _⟩ := calculate_ivs_score_total N K
    (generate_adjacency_matrix N K w statusDraw).1 origin susceptibility_factor
    severity_factors infection_severities iw h
  obtain ⟨hacc, hcon, _⟩ := bfsLoop_inactive N K
    (generate_adjacency_matrix N K w statusDraw).1 severity_factors iw
    susceptibility_factor (generate_edgeActive_false N K w statusDraw) _ _ st hrun
  exact ⟨st, hcalc, by rw [hacc]; rfl, by rw [hcon]; rfl⟩

/-- C2: for every valid origin index, `calculate_ivs_score` expands the
origin exactly once and every person at most once: the log of
neighbor-loop expansions contains the origin once and has no duplicates. -/
theorem ivs_c2 (N K : Nat) (adj : Nat → Nat → Cell) (origin : Nat)
    (susceptibility_factor : ℚ) (severity_factors : Nat → List ℚ)
    (infection_severities : List ℚ) (iw : Nat → Nat → ℚ)
    (h : origin < N) :
    ∃ st : BfsState,
      calculate_ivs_score N K adj origin susceptibility_factor severity_factors
        infection_severities iw = some (st, normalize_weights infection_severities) ∧
      st.processed.count origin = 1 ∧
      st.processed.Nodup := by
  obtain ⟨st, hcalc, hrun, _⟩ := calculate_ivs_score_total N K adj origin
    susceptibility_factor severity_factors infection_severities iw h
  obtain ⟨hnd, hcount⟩ := bfsLoop_init_processed N K adj severity_factors iw
    susceptibility_factor _ origin st hrun
  exact ⟨st, hcalc, hcount, hnd⟩

/-- C5: for severities that are strictly positive (drawn in `[0.1, 1.0]`)
and at least one infection, the normalized weights of
`calculate_ivs_score` sum to exactly `1` over exact rational arithmetic. -/
theorem ivs_c5 (infection_severities : List ℚ)
    (hK : infection_severities ≠ [])
    (hr : ∀ s ∈ infection_severities, 1/10 ≤ s ∧ s ≤ 1) :
    (normalize_weights infection_severities).sum = 1 :=
  normalize_weights_sum infection_severities hK
    (fun s hs => lt_of_lt_of_le (by norm_num) (hr s hs).1)

/-- C9: for every valid origin index and every `N × N` network (whatever
mixture of integer, float or ciphertext cells it contains),
`calculate_ivs_score` terminates — the loop empties its queue within the
given fuel and returns `some` — with at most `1 + N²` total queue
insertions. -/
theorem ivs_c9 (N K : Nat) (adj : Nat → Nat → Cell) (origin : Nat)
    (susceptibility_factor : ℚ) (severity_factors : Nat → List ℚ)
    (infection_severities : List ℚ) (iw : Nat → Nat → ℚ)
    (h : origin < N) :
    ∃ st : BfsState,
      calculate_ivs_score N K adj origin susceptibility_factor severity_factors
        infection_severities iw = some (st, normalize_weights infection_severities) ∧
      st.pushes ≤ 1 + N * N := by
  obtain ⟨st, hcalc, _, hpush⟩ := calculate_ivs_score_total N K adj origin
    susceptibility_factor severity_factors infection_severities iw h
  exact ⟨st, hcalc, hpush⟩

/-- C3: `classify_ivs_score` labels component `j` "safe" exactly when
`decoded[j] < 800`, "caution" exactly when `800 ≤ decoded[j] < 1200`, and
"high risk" exactly when `decoded[j] ≥ 1200`; in particular `800.0` is
classified "caution" and `1200.0` "high risk" (inclusive-exclusive). -/
theorem ivs_c3 (scores : List ℚ) (j : Nat) (hj : j < scores.length) :
    ((classify_ivs_score scores).get ⟨j, by simpa [classify_ivs_score] using hj⟩ =
        Label.safe ↔ scores.get ⟨j, hj⟩ < THRESHOLD_SAFE) ∧
    ((classify_ivs_score scores).get ⟨j, by simpa [classify_ivs_score] using hj⟩ =
        Label.caution ↔
      THRESHOLD_SAFE ≤ scores.get ⟨j, hj⟩ ∧ scores.get ⟨j, hj⟩ < THRESHOLD_CAUTION) ∧
    ((classify_ivs_score scores).get ⟨j, by simpa [classify_ivs_score] using hj⟩ =
        Label.highRisk ↔ THRESHOLD_CAUTION ≤ scores.get ⟨j, hj⟩) ∧
    classify_ivs_score [(800 : ℚ)] = [Label.caution] ∧
    classify_ivs_score [(1200 : ℚ)] = [Label.highRisk] := by
  have hget : (classify_ivs_score scores).get
        ⟨j, by simpa [classify_ivs_score] using hj⟩ =
      (if scores.get ⟨j, hj⟩ < THRESHOLD_SAFE then Label.safe
       else if scores.get ⟨j, hj⟩ < THRESHOLD_CAUTION then Label.caution
       else Label.highRisk) := by
    simp [classify_ivs_score, List.get_eq_getElem]
  rw [hget]
  have hTSTC : THRESHOLD_SAFE ≤ THRESHOLD_CAUTION := by
    norm_num [THRESHOLD_SAFE, THRESHOLD_CAUTION]
  refine ⟨?_, ?_, ?_, by decide, by decide⟩
  · by_cases h1 : scores.get ⟨j, hj⟩ < THRESHOLD_SAFE
    · rw [if_pos h1]
      exact iff_of_true rfl h1
    · rw [if_neg h1]
      refine iff_of_false ?_ h1
      split <;> simp
  · by_cases h1 : scores.get ⟨j, hj⟩ < THRESHOLD_SAFE
    · rw [if_pos h1]
      exact iff_of_false (by simp) (fun hc => absurd h1 (not_lt.mpr hc.1))
    · by_cases h2 : scores.get ⟨j, hj⟩ < THRESHOLD_CAUTION
      · rw [if_neg h1, if_pos h2]
        exact iff_of_true rfl ⟨not_lt.mp h1, h2⟩
      · rw [if_neg h1, if_neg h2]
        exact iff_of_false (by simp) (fun hc => h2 hc.2)
  · by_cases h1 : scores.get ⟨j, hj⟩ < THRESHOLD_SAFE
    · rw [if_pos h1]
      exact iff_of_false (by simp)
        (fun hc => absurd h1 (not_lt.mpr (le_trans hTSTC hc)))
    · by_cases h2 : scores.get ⟨j, hj⟩ < THRESHOLD_CAUTION
      · rw [if_neg h1, if_pos h2]
        exact iff_of_false (by simp) (fun hc => absurd h2 (not_lt.mpr hc))
      · rw [if_neg h1, if_neg h2]
        exact iff_of_true rfl (not_lt.mp h2)

/-- C4: the composite score is `Σ_j decoded[j] × weight[j]` over the `K`
infections with the weights returned by the traversal, and
`get_final_decision` applies the same thresholds `800`/`1200` with the same
inclusive-exclusive boundaries, yielding exactly three verdicts. -/
theorem ivs_c4 (N K : Nat) (decoded weights : List ℚ) (s : ℚ)
    (adj : Nat → Nat → Cell) (origin : Nat) (susceptibility_factor : ℚ)
    (severity_factors : Nat → List ℚ) (infection_severities : List ℚ)
    (iw : Nat → Nat → ℚ) (out : List ℚ × List Label × Decision)
    (hout : queryPipeline N K adj origin susceptibility_factor severity_factors
      infection_severities iw = some out) :
    final_ivs_score K decoded weights =
      ∑ j ∈ Finset.range K, decoded.getD j 0 * weights.getD j 0 ∧
    (get_final_decision s = Decision.allowed ↔ s < THRESHOLD_SAFE) ∧
    (get_final_decision s = Decision.avoidLargeGatherings ↔
      THRESHOLD_SAFE ≤ s ∧ s < THRESHOLD_CAUTION) ∧
    (get_final_decision s = Decision.notAllowed ↔ THRESHOLD_CAUTION ≤ s) ∧
    out.2.2 = get_final_decision
      (final_ivs_score K out.1 (normalize_weights infection_severities)) := by
  refine ⟨rfl, ?_, ?_, ?_, ?_⟩
  · unfold get_final_decision
    by_cases h1 : s < THRESHOLD_SAFE
    · rw [if_pos h1]
      exact iff_of_true rfl h1
    · rw [if_neg h1]
      refine iff_of_false ?_ h1
      by_cases h2 : s < THRESHOLD_CAUTION <;> simp [h2]
  · unfold get_final_decision
    by_cases h1 : s < THRESHOLD_SAFE
    · rw [if_pos h1]
      exact iff_of_false (by simp) (fun hc => absurd h1 (not_lt.mpr hc.1))
    · by_cases h2 : s < THRESHOLD_CAUTION
      · rw [if_neg h1, if_pos h2]
        exact iff_of_true rfl ⟨not_lt.mp h1, h2⟩
      · rw [if_neg h1, if_neg h2]
        exact iff_of_false (by simp) (fun hc => h2 hc.2)
  · unfold get_final_decision
    by_cases h1 : s < THRESHOLD_SAFE
    · rw [if_pos h1]
      exact iff_of_false (by simp)
        (fun hc => absurd h1 (not_lt.mpr (le_trans
          (by norm_num [THRESHOLD_SAFE, THRESHOLD_CAUTION]) hc)))
    · by_cases h2 : s < THRESHOLD_CAUTION
      · rw [if_neg h1, if_pos h2]
        exact iff_of_false (by simp) (fun hc => absurd h2 (not_lt.mpr hc))
      · rw [if_neg h1, if_neg h2]
        exact iff_of_true rfl (not_lt.mp h2)
  · unfold queryPipeline at hout
    rcases Option.map_eq_some'.mp hout with ⟨r, hr, hout2⟩
    unfold calculate_ivs_score at hr
    rcases Option.map_eq_some'.mp hr with ⟨st, _, hr2⟩
    rw [← hout2, ← hr2]

/-- C6: when the edge-activation test passes for the edge from the current
node at distance `d` to an unvisited neighbor, the traversal adds to the
accumulator the homomorphic product of the neighbor's encrypted status
vector with the encoding of
`interaction_weight * (1 / severity^d) * susceptibility_factor` and
enqueues the neighbor at `d + 1`; at distance `0` the divisor equals `1`;
and the origin's own status never contributes. -/
theorem ivs_c6 (N K : Nat) (adj : Nat → Nat → Cell)
    (severity_factors : Nat → List ℚ) (iw : Nat → Nat → ℚ)
    (susceptibility_factor : ℚ) (person distance neighbor : Nat)
    (st : BfsState) (fuel origin : Nat) (r : BfsState)
    (hnv : neighbor ∉ st.visited)
    (hact : edgeActive (adj person neighbor) = true)
    (hrun : bfsLoop N K adj severity_factors iw susceptibility_factor fuel
      (initState K origin) = some r) :
    processNeighbor K adj severity_factors iw susceptibility_factor person distance
        st neighbor =
      { st with
        ivs_scores := ckksAdd st.ivs_scores
          (ckksMul (cellVec K (adj neighbor neighbor))
            (encrypt (ivs_contribution (iw person neighbor) susceptibility_factor
              (severity_factors neighbor) distance))),
        queue := st.queue ++ [(neighbor, distance + 1)],
        contribs := st.contribs ++ [neighbor],
        pushes := st.pushes + 1 } ∧
    ivs_contribution (iw person neighbor) susceptibility_factor
        (severity_factors neighbor) 0 =
      (severity_factors neighbor).map
        (fun _ => iw person neighbor * susceptibility_factor) ∧
    origin ∉ r.contribs := by
  refine ⟨?_, ?_,
    bfsLoop_init_contribs N K adj severity_factors iw susceptibility_factor
      fuel origin r hrun⟩
  · unfold processNeighbor
    rw [if_neg hnv, if_pos hact]
  · unfold ivs_contribution
    simp

/-- C7: for all `N, K > 0` the generator always succeeds and returns a
matrix whose off-diagonal cells hold plaintext float weights in `[0, 10)`
and whose diagonal cells hold exactly the ciphertext encrypting that
person's length-`K` binary status vector — ciphertext-typed (`Cell.enc`),
distinct from the plaintext weights (`Cell.fval`) elsewhere. -/
theorem ivs_c7 (N K : Nat) (w : Nat → Nat → ℚ) (statusDraw : Nat → Nat → ℕ)
    (hw : ∀ i j, 0 ≤ w i j ∧ w i j < 10)
    (hs : ∀ i j, statusDraw i j = 0 ∨ statusDraw i j = 1) :
    ∀ i j, i < N → j < N →
      (i ≠ j →
        (generate_adjacency_matrix N K w statusDraw).1 i j = Cell.fval (w i j) ∧
        0 ≤ w i j ∧ w i j < 10) ∧
      ((generate_adjacency_matrix N K w statusDraw).1 i i =
        Cell.enc (encrypt
          (((generate_adjacency_matrix N K w statusDraw).2.2 i).map
            (fun x => (x : ℚ)))) ∧
       (generate_adjacency_matrix N K w statusDraw).2.1 i =
         encrypt (((generate_adjacency_matrix N K w statusDraw).2.2 i).map
           (fun x => (x : ℚ))) ∧
       ((generate_adjacency_matrix N K w statusDraw).2.2 i).length = K ∧
       ∀ x ∈ (generate_adjacency_matrix N K w statusDraw).2.2 i,
         x = 0 ∨ x = 1) := by
  intro i j _ _
  refine ⟨fun hij => ⟨?_, hw i j⟩, ?_, rfl, by simp [generate_adjacency_matrix], ?_⟩
  · unfold generate_adjacency_matrix
    simp [hij]
  · unfold generate_adjacency_matrix
    simp
  · intro x hx
    unfold generate_adjacency_matrix at hx
    simp only [List.mem_map, List.mem_range] at hx
    obtain ⟨k, _, hk⟩ := hx
    rw [← hk]
    exact hs i k

/-- C8: for every query input that is non-integer or an out-of-range index
(in particular index `= N`), the interaction loop reports an error and
continues without computing a score, and the adjacency matrix threaded
through the loop body is returned unchanged. -/
theorem ivs_c8 (N K : Nat) (adj : Nat → Nat → Cell)
    (susceptibility_factor : ℚ) (severity_factors : Nat → List ℚ)
    (infection_severities : List ℚ) (iw : Nat → Nat → ℚ) (input : String)
    (hexit : pyLower input ≠ "exit")
    (hbad : pyIsDigit input = false ∨ N ≤ parseDigits input) :
    (mainStep N K adj susceptibility_factor severity_factors infection_severities
      iw input).1 = adj ∧
    ((mainStep N K adj susceptibility_factor severity_factors infection_severities
        iw input).2 = QueryOutcome.invalidInput ∨
     (mainStep N K adj susceptibility_factor severity_factors infection_severities
        iw input).2 = QueryOutcome.invalidIndex) ∧
    ∀ res, (mainStep N K adj susceptibility_factor severity_factors
      infection_severities iw input).2 ≠ QueryOutcome.computed res := by
  unfold mainStep
  rw [if_neg hexit]
  rcases hbad with hb | hb
  · rw [if_pos (by rw [hb]; rfl)]
    exact ⟨rfl, Or.inl rfl, fun res => by simp⟩
  · by_cases hd : pyIsDigit input
    · rw [if_neg (by rw [hd]; exact Bool.false_ne_true), if_pos hb]
      exact ⟨rfl, Or.inr rfl, fun res => by simp⟩
    · rw [if_pos (by rw [Bool.not_eq_true] at hd; rw [hd]; rfl)]
      exact ⟨rfl, Or.inl rfl, fun res => by simp⟩

/-- On any generated network (exact arithmetic), a valid query returns the
constant observable output: every decoded score is the base value `5`,
every label is "safe", and the decision is "allowed". -/
theorem queryPipeline_generated (N K : Nat) (w : Nat → Nat → ℚ)
    (statusDraw : Nat → Nat → ℕ) (origin : Nat) (susceptibility_factor : ℚ)
    (severity_factors : Nat → List ℚ) (infection_severities : List ℚ)
    (iw : Nat → Nat → ℚ) (h : origin < N)
    (hl : infection_severities.length = K)
    (hpos : ∀ s ∈ infection_severities, 0 < s) :
    queryPipeline N K (generate_adjacency_matrix N K w statusDraw).1 origin
      susceptibility_factor severity_factors infection_severities iw =
      some (List.replicate K 5, List.replicate K Label.safe, Decision.allowed) := by
  obtain ⟨st, hcalc, hrun, _⟩ := calculate_ivs_score_total N K
    (generate_adjacency_matrix N K w statusDraw).1 origin susceptibility_factor
    severity_factors infection_severities iw h
  obtain ⟨hacc, _, _⟩ := bfsLoop_inactive N K
    (generate_adjacency_matrix N K w statusDraw).1 severity_factors iw
    susceptibility_factor (generate_edgeActive_false N K w statusDraw) _ _ st hrun
  have hdec : decrypt st.ivs_scores = List.replicate K (5 : ℚ) := by
    rw [hacc]; rfl
  have hcls : classify_ivs_score (List.replicate K (5 : ℚ)) =
      List.replicate K Label.safe := by
    unfold classify_ivs_score
    rw [List.map_replicate, if_pos (by norm_num [THRESHOLD_SAFE])]
  have hnwlen : (normalize_weights infection_severities).length = K := by
    simp [normalize_weights, hl]
  have hfin : final_ivs_score K (List.replicate K (5 : ℚ))
      (normalize_weights infection_severities) =
      5 * (normalize_weights infection_severities).sum := by
    unfold final_ivs_score
    calc ∑ i ∈ Finset.range K,
          (List.replicate K (5 : ℚ)).getD i 0 *
            (normalize_weights infection_severities).getD i 0
        = ∑ i ∈ Finset.range K,
            5 * (normalize_weights infection_severities).getD i 0 :=
          Finset.sum_congr rfl (fun i hi => by
            rw [getD_replicate K i 5 (Finset.mem_range.mp hi)])
      _ = 5 * ∑ i ∈ Finset.range K,
            (normalize_weights infection_severities).getD i 0 := by
          rw [Finset.mul_sum]
      _ = 5 * (normalize_weights infection_severities).sum := by
          rw [show K = (normalize_weights infection_severities).length
            from hnwlen.symm, sum_range_getD]
  have hdecision : get_final_decision (final_ivs_score K
      (List.replicate K (5 : ℚ)) (normalize_weights infection_severities)) =
      Decision.allowed := by
    rw [hfin]
    rcases Nat.eq_zero_or_pos K with hK0 | hKpos
    · have hnil : infection_severities = [] :=
        List.length_eq_zero.mp (by rw [hl, hK0])
      rw [hnil]
      norm_num [normalize_weights, get_final_decision, THRESHOLD_SAFE]
    · have hne : infection_severities ≠ [] := by
        intro he
        rw [he] at hl
        simp at hl
        omega
      rw [normalize_weights_sum infection_severities hne hpos]
      norm_num [get_final_decision, THRESHOLD_SAFE]
  unfold queryPipeline
  rw [hcalc, Option.map_some']
  simp only
  rw [hdec, hcls, hdecision]

/-- C10 (implicit noninterference): under exact arithmetic, two runs of the
full query pipeline on generated networks that differ in the origin and in
every person's infection-status vectors (and in all other random draws)
produce identical observable output — decoded scores all `5`, labels all
"safe", decision "allowed" — revealing nothing about statuses or origin. -/
theorem ivs_c10 (N K : Nat)
    (w1 w2 : Nat → Nat → ℚ) (sd1 sd2 : Nat → Nat → ℕ)
    (origin1 origin2 : Nat) (susc1 susc2 : ℚ)
    (sevf1 sevf2 : Nat → List ℚ) (sevs1 sevs2 : List ℚ)
    (iw1 iw2 : Nat → Nat → ℚ)
    (h1 : origin1 < N) (h2 : origin2 < N)
    (hl1 : sevs1.length = K) (hl2 : sevs2.length = K)
    (hr1 : ∀ s ∈ sevs1, 1/10 ≤ s ∧ s ≤ 1)
    (hr2 : ∀ s ∈ sevs2, 1/10 ≤ s ∧ s ≤ 1) :
    queryPipeline N K (generate_adjacency_matrix N K w1 sd1).1 origin1 susc1
        sevf1 sevs1 iw1 =
      queryPipeline N K (generate_adjacency_matrix N K w2 sd2).1 origin2 susc2
        sevf2 sevs2 iw2 ∧
    queryPipeline N K (generate_adjacency_matrix N K w1 sd1).1 origin1 susc1
        sevf1 sevs1 iw1 =
      some (List.replicate K 5, List.replicate K Label.safe, Decision.allowed) := by
  have hp1 := queryPipeline_generated N K w1 sd1 origin1 susc1 sevf1 sevs1 iw1
    h1 hl1 (fun s hs => lt_of_lt_of_le (by norm_num) (hr1 s hs).1)
  have hp2 := queryPipeline_generated N K w2 sd2 origin2 susc2 sevf2 sevs2 iw2
    h2 hl2 (fun s hs => lt_of_lt_of_le (by norm_num) (hr2 s hs).1)
  exact ⟨by rw [hp1, hp2], hp1⟩

/-! ## Witnesses -/

/-- Witness for C1 at `N = 2`, `K = 1`, origin `0`. -/
theorem ivs_c1_witness :
    (0 : Nat) < 2 ∧
    ∃ st : BfsState,
      calculate_ivs_score 2 1
        (generate_adjacency_matrix 2 1 (fun _ _ => 3) (fun _ _ => 1)).1 0 1
        (fun _ => [1]) [1] (fun _ _ => 1) = some (st, normalize_weights [1]) ∧
      st.ivs_scores = encrypt (List.replicate 1 5) ∧
      st.contribs = [] :=
  ⟨by decide,
    (ivs_c1 2 1 (fun _ _ => 3) (fun _ _ => 1) 0 1 (fun _ => [1]) [1] (fun _ _ => 1)
      (by decide)).2⟩

/-- Witness for C2 at `N = 2`, `K = 1`, origin `1`. -/
theorem ivs_c2_witness :
    (1 : Nat) < 2 ∧
    ∃ st : BfsState,
      calculate_ivs_score 2 1 (fun _ _ => Cell.fval 2) 1 1 (fun _ => [1]) [1]
        (fun _ _ => 1) = some (st, normalize_weights [1]) ∧
      st.processed.count 1 = 1 ∧
      st.processed.Nodup :=
  ⟨by decide,
    ivs_c2 2 1 (fun _ _ => Cell.fval 2) 1 1 (fun _ => [1]) [1] (fun _ _ => 1)
      (by decide)⟩

/-- Witness for C3 at `scores = [5]`, `j = 0`; records the boundary facts. -/
theorem ivs_c3_witness :
    classify_ivs_score [(800 : ℚ)] = [Label.caution] ∧
    classify_ivs_score [(1200 : ℚ)] = [Label.highRisk] := by
  have h := ivs_c3 [(5 : ℚ)] 0 (by decide)
  exact ⟨h.2.2.2.1, h.2.2.2.2⟩

/-- Witness for C4 at a concrete successful query on a generated `N = 1`
network. -/
theorem ivs_c4_witness :
    (get_final_decision 0 = Decision.allowed ↔ (0 : ℚ) < THRESHOLD_SAFE) ∧
    ((List.replicate 1 (5 : ℚ), List.replicate 1 Label.safe,
        Decision.allowed) : List ℚ × List Label × Decision).2.2 =
      get_final_decision (final_ivs_score 1
        (List.replicate 1 (5 : ℚ)) (normalize_weights [1])) := by
  have h := ivs_c4 1 1 [5] [1] 0
    (generate_adjacency_matrix 1 1 (fun _ _ => 3) (fun _ _ => 0)).1 0 1
    (fun _ => [1]) [1] (fun _ _ => 1)
    (List.replicate 1 (5 : ℚ), List.replicate 1 Label.safe, Decision.allowed)
    (queryPipeline_generated 1 1 (fun _ _ => 3) (fun _ _ => 0) 0 1
      (fun _ => [1]) [1] (fun _ _ => 1) (by decide) (by decide) (by decide))
  exact ⟨h.2.1, h.2.2.2.2⟩

/-- Witness for C5 at `infection_severities = [1]`. -/
theorem ivs_c5_witness : (normalize_weights [(1 : ℚ)]).sum = 1 :=
  ivs_c5 [(1 : ℚ)] (by decide) (by
    intro s hs
    obtain rfl := List.mem_singleton.mp hs
    norm_num)

/-- Witness for C6 at a concrete active edge and a concrete completed run. -/
theorem ivs_c6_witness :
    ivs_contribution 1 1 [(1 : ℚ)] 0 =
      ([(1 : ℚ)]).map (fun _ => (1 : ℚ) * 1) ∧
    (0 : Nat) ∉ (BfsState.mk [5] {0} [] [0] [] 1).contribs := by
  have h := ivs_c6 1 1 (fun _ _ => Cell.ival 3) (fun _ => [(1 : ℚ)])
    (fun _ _ => 1) 1 0 0 1 (initState 1 0) 1 0 (BfsState.mk [5] {0} [] [0] [] 1)
    (by decide) (by decide) (by decide)
  exact ⟨h.2.1, h.2.2⟩

/-- Witness for C7 at `N = 2`, `K = 1`. -/
theorem ivs_c7_witness :
    (generate_adjacency_matrix 2 1 (fun _ _ => 3) (fun _ _ => 1)).1 0 1 =
      Cell.fval 3 ∧
    (generate_adjacency_matrix 2 1 (fun _ _ => 3) (fun _ _ => 1)).1 0 0 =
      Cell.enc (encrypt
        (((generate_adjacency_matrix 2 1 (fun _ _ => 3) (fun _ _ => 1)).2.2 0).map
          (fun x => (x : ℚ)))) := by
  have h := ivs_c7 2 1 (fun _ _ => 3) (fun _ _ => 1)
    (by intro i j; norm_num) (fun i j => Or.inr rfl) 0 1 (by decide) (by decide)
  exact ⟨(h.1 (by decide)).1, h.2.1⟩

/-- Witness for C8: the out-of-range index `N = NUM_PEOPLE = 50` itself. -/
theorem ivs_c8_witness :
    (mainStep NUM_PEOPLE NUM_INFECTIONS (fun _ _ => Cell.fval 1) 1
        (fun _ => [1]) [1] (fun _ _ => 1) "50").1 = (fun _ _ => Cell.fval 1) ∧
    ((mainStep NUM_PEOPLE NUM_INFECTIONS (fun _ _ => Cell.fval 1) 1
        (fun _ => [1]) [1] (fun _ _ => 1) "50").2 = QueryOutcome.invalidInput ∨
     (mainStep NUM_PEOPLE NUM_INFECTIONS (fun _ _ => Cell.fval 1) 1
        (fun _ => [1]) [1] (fun _ _ => 1) "50").2 = QueryOutcome.invalidIndex) := by
  have h := ivs_c8 NUM_PEOPLE NUM_INFECTIONS (fun _ _ => Cell.fval 1) 1
    (fun _ => [1]) [1] (fun _ _ => 1) "50" (by decide) (Or.inr (by decide))
  exact ⟨h.1, h.2.1⟩

/-- Witness for C9 at `N = 2`, `K = 1`, a mixed-cell network. -/
theorem ivs_c9_witness :
    (0 : Nat) < 2 ∧
    ∃ st : BfsState,
      calculate_ivs_score 2 1
        (fun i j => if i = j then Cell.enc [1] else Cell.ival 3) 0 1
        (fun _ => [1]) [1] (fun _ _ => 1) = some (st, normalize_weights [1]) ∧
      st.pushes ≤ 1 + 2 * 2 :=
  ⟨by decide,
    ivs_c9 2 1 (fun i j => if i = j then Cell.enc [1] else Cell.ival 3) 0 1
      (fun _ => [1]) [1] (fun _ _ => 1) (by decide)⟩

/-- Witness for C10: two runs at `N = 2`, `K = 1` differing in origin and
in every person's status vector. -/
theorem ivs_c10_witness :
    queryPipeline 2 1 (generate_adjacency_matrix 2 1 (fun _ _ => 3)
        (fun _ _ => 0)).1 0 1 (fun _ => [1]) [1] (fun _ _ => 1) =
      queryPipeline 2 1 (generate_adjacency_matrix 2 1 (fun _ _ => 7)
        (fun _ _ => 1)).1 1 2 (fun _ => [2]) [1] (fun _ _ => 1) ∧
    queryPipeline 2 1 (generate_adjacency_matrix 2 1 (fun _ _ => 3)
        (fun _ _ => 0)).1 0 1 (fun _ => [1]) [1] (fun _ _ => 1) =
      some (List.replicate 1 5, List.replicate 1 Label.safe, Decision.allowed) :=
  ivs_c10 2 1 (fun _ _ => 3) (fun _ _ => 7) (fun _ _ => 0) (fun _ _ => 1)
    0 1 1 2 (fun _ => [1]) (fun _ => [2]) [1] [1] (fun _ _ => 1) (fun _ _ => 1)
    (by decide) (by decide) (by decide) (by decide)
    (by
      intro s hs
      obtain rfl := List.mem_singleton.mp hs
      norm_num)
    (by
      intro s hs
      obtain rfl := List.mem_singleton.mp hs
      norm_num)
